import Mathlib

/-!
Verification of the Grover's-algorithm notebook (2-qubit instance).

The notebook builds a 2-qubit qiskit circuit (Hadamards, a CZ oracle, an
inline diffuser), defines two helper functions (initialize_s and diffuser),
and simulates the statevector.  Every gate used by the code (H, X, Z, CZ,
multi-controlled Toffoli) has a real matrix with entries in the subring
Q[sqrt 2] of the reals, so the whole simulation is embedded exactly over
that computable ring.
-/

namespace GroverNotebook

/-- The ring Q[sqrt 2]: an element `⟨a, b⟩` stands for `a + b * sqrt 2`.
All amplitudes produced by the notebook's gates lie in this subring of the
reals, so circuit states can be represented exactly and computably. -/
structure Amp where
  re : ℚ
  rt : ℚ
deriving DecidableEq, Repr

namespace Amp

/-- Addition: componentwise. -/
def add (x y : Amp) : Amp := ⟨x.re + y.re, x.rt + y.rt⟩

/-- Multiplication, using `sqrt 2 * sqrt 2 = 2`. -/
def mul (x y : Amp) : Amp :=
  ⟨x.re * y.re + 2 * x.rt * y.rt, x.re * y.rt + x.rt * y.re⟩

/-- Negation: componentwise. -/
def neg (x : Amp) : Amp := ⟨-x.re, -x.rt⟩

instance : Zero Amp := ⟨⟨0, 0⟩⟩
instance : One Amp := ⟨⟨1, 0⟩⟩
instance : Add Amp := ⟨add⟩
instance : Mul Amp := ⟨mul⟩
instance : Neg Amp := ⟨neg⟩

theorem add_def (x y : Amp) : x + y = ⟨x.re + y.re, x.rt + y.rt⟩ := rfl

theorem mul_def (x y : Amp) :
    x * y = ⟨x.re * y.re + 2 * x.rt * y.rt, x.re * y.rt + x.rt * y.re⟩ := rfl

theorem neg_def (x : Amp) : -x = ⟨-x.re, -x.rt⟩ := rfl

theorem zero_def : (0 : Amp) = ⟨0, 0⟩ := rfl

theorem one_def : (1 : Amp) = ⟨1, 0⟩ := rfl

instance instAddCommGroup : AddCommGroup Amp where
  add_assoc x y z := by
    cases x; cases y; cases z
    simp only [add_def, mk.injEq]
    refine ⟨?_, ?_⟩ <;> ring
  zero_add x := by
    cases x; simp only [add_def, zero_def, mk.injEq]
    refine ⟨?_, ?_⟩ <;> ring
  add_zero x := by
    cases x; simp only [add_def, zero_def, mk.injEq]
    refine ⟨?_, ?_⟩ <;> ring
  add_comm x y := by
    cases x; cases y
    simp only [add_def, mk.injEq]
    refine ⟨?_, ?_⟩ <;> ring
  neg_add_cancel x := by
    cases x
    simp only [add_def, neg_def, zero_def, mk.injEq]
    refine ⟨?_, ?_⟩ <;> ring
  nsmul := nsmulRec
  zsmul := zsmulRec

instance : CommRing Amp where
  __ := instAddCommGroup
  mul_assoc x y z := by
    cases x; cases y; cases z
    simp only [mul_def, mk.injEq]
    refine ⟨?_, ?_⟩ <;> ring
  one_mul x := by
    cases x; simp only [mul_def, one_def, mk.injEq]
    refine ⟨?_, ?_⟩ <;> ring
  mul_one x := by
    cases x; simp only [mul_def, one_def, mk.injEq]
    refine ⟨?_, ?_⟩ <;> ring
  left_distrib x y z := by
    cases x; cases y; cases z
    simp only [mul_def, add_def, mk.injEq]
    refine ⟨?_, ?_⟩ <;> ring
  right_distrib x y z := by
    cases x; cases y; cases z
    simp only [mul_def, add_def, mk.injEq]
    refine ⟨?_, ?_⟩ <;> ring
  mul_comm x y := by
    cases x; cases y
    simp only [mul_def, mk.injEq]
    refine ⟨?_, ?_⟩ <;> ring
  zero_mul x := by
    cases x; simp only [mul_def, zero_def, mk.injEq]
    refine ⟨?_, ?_⟩ <;> ring
  mul_zero x := by
    cases x; simp only [mul_def, zero_def, mk.injEq]
    refine ⟨?_, ?_⟩ <;> ring

/-- The amplitude `1 / sqrt 2 = (1/2) * sqrt 2`, the nonzero entry scale of
the Hadamard matrix. -/
def invSqrt2 : Amp := ⟨0, 1/2⟩

/-- The defining property of `invSqrt2`: twice its square is one.  Stated
without numerals of `Amp` so that it can be fed to `linear_combination`. -/
theorem invSqrt2_sq : invSqrt2 * invSqrt2 + invSqrt2 * invSqrt2 = 1 := by
  simp only [invSqrt2, mul_def, add_def, one_def, mk.injEq]
  norm_num

end Amp

open Amp

/-- A statevector on `n` qubits: an amplitude for each assignment of the
qubits (qiskit's basis state `|x_{n-1} ... x_0⟩` is the function sending
qubit index `i` to bit `x_i`). -/
def State (n : ℕ) : Type := (Fin n → Bool) → Amp

/-- The simulator's initial state `|0...0⟩`. -/
def initState (n : ℕ) : State n :=
  fun b => if ∀ i, b i = false then 1 else 0

/-- Hadamard gate on qubit `q` (matrix `(1/sqrt 2) * [[1,1],[1,-1]]`),
acting on the amplitude function in the standard way: the amplitude of `b`
becomes `(1/sqrt 2) * (ψ(b[q:=0]) + (-1)^(b q) * ψ(b[q:=1]))`. -/
def applyH {n : ℕ} (q : Fin n) (ψ : State n) : State n :=
  fun b =>
    invSqrt2 * (ψ (Function.update b q false) +
      (if b q then -ψ (Function.update b q true) else ψ (Function.update b q true)))

/-- Pauli-X gate on qubit `q`: permutes the basis by flipping bit `q`. -/
def applyX {n : ℕ} (q : Fin n) (ψ : State n) : State n :=
  fun b => ψ (Function.update b q (! b q))

/-- Pauli-Z gate on qubit `q`: negates the amplitude of every basis state
whose bit `q` is one. -/
def applyZ {n : ℕ} (q : Fin n) (ψ : State n) : State n :=
  fun b => if b q then -ψ b else ψ b

/-- Controlled-Z gate: applies `Z` on qubit `q2` when qubit `q1` is one. -/
def applyCZ {n : ℕ} (q1 q2 : Fin n) (ψ : State n) : State n :=
  fun b => if b q1 then applyZ q2 ψ b else ψ b

/-- Multi-controlled Toffoli: applies `X` on the target `t` when every
control qubit in `cs` is one. -/
def applyMCT {n : ℕ} (cs : List (Fin n)) (t : Fin n) (ψ : State n) : State n :=
  fun b => if cs.all b then applyX t ψ b else ψ b

/-- Fold a one-qubit operation over a list of qubit indices, in list order
(the order in which the notebook's loops append the gates). -/
def applyAll {n : ℕ} (l : List (Fin n)) (f : Fin n → State n → State n)
    (ψ : State n) : State n :=
  l.foldl (fun φ q => f q φ) ψ

/-- Multiply every amplitude by `-1` when the (Bool-valued) predicate `p`
holds of the basis state: the generic diagonal phase-flip operator. -/
def phaseFlip {n : ℕ} (p : (Fin n → Bool) → Bool) (ψ : State n) : State n :=
  fun b => if p b then -ψ b else ψ b

theorem applyAll_nil {n : ℕ} (f : Fin n → State n → State n) (ψ : State n) :
    applyAll [] f ψ = ψ := rfl

theorem applyAll_cons {n : ℕ} (q : Fin n) (l : List (Fin n))
    (f : Fin n → State n → State n) (ψ : State n) :
    applyAll (q :: l) f ψ = applyAll l f (f q ψ) := rfl

/-- The Hadamard gate is its own inverse. -/
theorem applyH_applyH {n : ℕ} (q : Fin n) (ψ : State n) :
    applyH q (applyH q ψ) = ψ := by
  funext b
  have hb0 : Function.update b q (b q) = b := Function.update_eq_self q b
  rcases hb : b q with _ | _
  · rw [hb] at hb0
    simp [applyH, Function.update_idem, Function.update_same, hb, hb0]
    linear_combination ψ b * invSqrt2_sq
  · rw [hb] at hb0
    simp [applyH, Function.update_idem, Function.update_same, hb, hb0]
    linear_combination ψ b * invSqrt2_sq

/-- The Pauli-X gate is its own inverse. -/
theorem applyX_applyX {n : ℕ} (q : Fin n) (ψ : State n) :
    applyX q (applyX q ψ) = ψ := by
  funext b
  have hb0 : Function.update b q (b q) = b := Function.update_eq_self q b
  simp only [applyX, Function.update_same, Function.update_idem, Bool.not_not, hb0]

/-- Hadamard gates on two different qubits commute. -/
theorem applyH_comm_ne {n : ℕ} {q q' : Fin n} (hne : q ≠ q') (ψ : State n) :
    applyH q (applyH q' ψ) = applyH q' (applyH q ψ) := by
  funext b
  simp only [applyH, Function.update_noteq hne, Function.update_noteq hne.symm,
    Function.update_comm hne]
  rcases hq : b q with _ | _ <;> rcases hq' : b q' with _ | _ <;>
    simp only [hq, hq', if_true, if_false, Bool.false_eq_true] <;> ring

/-- Hadamard gates on any two qubits commute. -/
theorem applyH_comm {n : ℕ} (q q' : Fin n) (ψ : State n) :
    applyH q (applyH q' ψ) = applyH q' (applyH q ψ) := by
  by_cases h : q = q'
  · rw [h]
  · exact applyH_comm_ne h ψ

/-- Pauli-X gates on any two qubits commute. -/
theorem applyX_comm {n : ℕ} (q q' : Fin n) (ψ : State n) :
    applyX q (applyX q' ψ) = applyX q' (applyX q ψ) := by
  by_cases h : q = q'
  · rw [h]
  · funext b
    simp only [applyX, Function.update_noteq h, Function.update_noteq (Ne.symm h),
      Function.update_comm h]

/-- A one-qubit operation that commutes with itself on all pairs of qubits
moves through a fold of itself. -/
theorem applyAll_comm {n : ℕ} (f : Fin n → State n → State n)
    (hf : ∀ q q' ψ, f q (f q' ψ) = f q' (f q ψ)) (l : List (Fin n))
    (q : Fin n) (ψ : State n) :
    applyAll l f (f q ψ) = f q (applyAll l f ψ) := by
  induction l generalizing ψ with
  | nil => rfl
  | cons p l ih =>
      rw [applyAll_cons, applyAll_cons, ← hf, ih]

/-- A fold of Hadamard gates is its own inverse (the gates pairwise
commute, and each is an involution). -/
theorem applyAll_H_involutive {n : ℕ} (l : List (Fin n)) (ψ : State n) :
    applyAll l applyH (applyAll l applyH ψ) = ψ := by
  induction l generalizing ψ with
  | nil => rfl
  | cons q l ih =>
      rw [applyAll_cons, applyAll_cons,
        applyAll_comm applyH applyH_comm l q ψ, applyH_applyH, ih]

/-- A Hadamard gate is linear: it maps `φ + c • χ` to `H φ + c • H χ`. -/
theorem applyH_add_smul {n : ℕ} (q : Fin n) (φ χ : State n) (c : Amp) :
    applyH q (fun b => φ b + c * χ b) =
      fun b => applyH q φ b + c * applyH q χ b := by
  funext b
  rcases hb : b q with _ | _ <;> simp [applyH, hb] <;> ring

/-- A fold of Hadamard gates is linear. -/
theorem applyAll_H_add_smul {n : ℕ} (l : List (Fin n)) (φ χ : State n)
    (c : Amp) :
    applyAll l applyH (fun b => φ b + c * χ b) =
      fun b => applyAll l applyH φ b + c * applyAll l applyH χ b := by
  induction l generalizing φ χ with
  | nil => rfl
  | cons q l ih =>
      rw [applyAll_cons, applyAll_cons, applyAll_cons, applyH_add_smul,
        ih (applyH q φ) (applyH q χ)]

/-- Conjugating a diagonal phase flip by `X` on qubit `q` flips bit `q`
inside the predicate. -/
theorem applyX_phaseFlip_applyX {n : ℕ} (q : Fin n)
    (p : (Fin n → Bool) → Bool) (ψ : State n) :
    applyX q (phaseFlip p (applyX q ψ)) =
      phaseFlip (fun b => p (Function.update b q (! b q))) ψ := by
  funext b
  have hb0 : Function.update b q (b q) = b := Function.update_eq_self q b
  simp only [applyX, phaseFlip, Function.update_same, Function.update_idem,
    Bool.not_not, hb0]

/-- Flip bit `q` of a basis assignment. -/
def flipBit {n : ℕ} (q : Fin n) (b : Fin n → Bool) : Fin n → Bool :=
  Function.update b q (! b q)

/-- Flip every bit named by the list `l`, in order. -/
def flipAll {n : ℕ} (l : List (Fin n)) (b : Fin n → Bool) : Fin n → Bool :=
  l.foldl (fun c q => flipBit q c) b

theorem flipAll_cons {n : ℕ} (q : Fin n) (l : List (Fin n))
    (b : Fin n → Bool) : flipAll (q :: l) b = flipAll l (flipBit q b) := rfl

/-- Bit flips on any two qubits commute. -/
theorem flipBit_comm {n : ℕ} (q q' : Fin n) (b : Fin n → Bool) :
    flipBit q (flipBit q' b) = flipBit q' (flipBit q b) := by
  by_cases h : q = q'
  · rw [h]
  · simp only [flipBit, Function.update_noteq h, Function.update_noteq (Ne.symm h),
      Function.update_comm h]

/-- A single bit flip moves through a fold of bit flips. -/
theorem flipAll_flipBit {n : ℕ} (l : List (Fin n)) (q : Fin n)
    (b : Fin n → Bool) : flipAll l (flipBit q b) = flipBit q (flipAll l b) := by
  induction l generalizing b with
  | nil => rfl
  | cons p l ih => rw [flipAll_cons, flipAll_cons, ← flipBit_comm, ih]

/-- Conjugating a diagonal phase flip by a fold of `X` gates composes the
predicate with the corresponding bit flips. -/
theorem applyAll_X_phaseFlip {n : ℕ} (l : List (Fin n))
    (p : (Fin n → Bool) → Bool) (ψ : State n) :
    applyAll l applyX (phaseFlip p (applyAll l applyX ψ)) =
      phaseFlip (fun b => p (flipAll l b)) ψ := by
  induction l generalizing p ψ with
  | nil => rfl
  | cons q l ih =>
      rw [applyAll_cons, applyAll_cons,
        applyAll_comm applyX applyX_comm l q ψ,
        applyX_phaseFlip_applyX q p (applyAll l applyX ψ),
        ih (fun b => p (Function.update b q (! b q))) ψ]
      have hp : ∀ b, p (Function.update (flipAll l b) q (! flipAll l b q)) =
          p (flipAll (q :: l) b) := by
        intro b
        rw [flipAll_cons, flipAll_flipBit]
        rfl
      funext b
      simp only [phaseFlip, hp]

/-- Bit `i` after flipping all of `l`: flipped when `i ∈ l` (for a list
without duplicates). -/
theorem flipAll_apply {n : ℕ} (l : List (Fin n)) (hl : l.Nodup)
    (b : Fin n → Bool) (i : Fin n) :
    flipAll l b i = if i ∈ l then ! b i else b i := by
  induction l generalizing b with
  | nil => simp [flipAll]
  | cons q l ih =>
      have hq : q ∉ l := (List.nodup_cons.mp hl).1
      rw [flipAll_cons, ih (List.nodup_cons.mp hl).2]
      by_cases hiq : i = q
      · subst hiq
        simp [flipBit, hq]
      · simp [flipBit, Function.update_noteq hiq, List.mem_cons, hiq]

/-- Membership of the controls is untouched by updating the target bit. -/
theorem all_update_of_not_mem {n : ℕ} {cs : List (Fin n)} {t : Fin n}
    (ht : t ∉ cs) (b : Fin n → Bool) (v : Bool) :
    cs.all (Function.update b t v) = cs.all b := by
  induction cs with
  | nil => rfl
  | cons c cs ih =>
      have h1 : c ≠ t := fun h => ht (h ▸ List.mem_cons_self c cs)
      have h2 : t ∉ cs := fun h => ht (List.mem_cons_of_mem c h)
      simp only [List.all_cons, Function.update_noteq h1, ih h2]

/-- Conjugating the multi-controlled Toffoli by Hadamards on its target
gives the multi-controlled Z: a phase flip on the basis states where all
controls and the target are one. -/
theorem applyH_MCT_applyH {n : ℕ} {cs : List (Fin n)} {t : Fin n}
    (ht : t ∉ cs) (ψ : State n) :
    applyH t (applyMCT cs t (applyH t ψ)) =
      phaseFlip (fun b => cs.all b && b t) ψ := by
  funext b
  have hall : ∀ v, cs.all (Function.update b t v) = cs.all b :=
    all_update_of_not_mem ht b
  have hb0 : Function.update b t (b t) = b := Function.update_eq_self t b
  rcases hK : cs.all b with _ | _ <;> rcases hb : b t with _ | _
  · rw [hb] at hb0
    simp [applyH, applyMCT, applyX, phaseFlip, Function.update_idem,
      Function.update_same, hall, hK, hb, hb0]
    linear_combination ψ b * invSqrt2_sq
  · rw [hb] at hb0
    simp [applyH, applyMCT, applyX, phaseFlip, Function.update_idem,
      Function.update_same, hall, hK, hb, hb0]
    linear_combination ψ b * invSqrt2_sq
  · rw [hb] at hb0
    simp [applyH, applyMCT, applyX, phaseFlip, Function.update_idem,
      Function.update_same, hall, hK, hb, hb0]
    linear_combination ψ b * invSqrt2_sq
  · rw [hb] at hb0
    simp [applyH, applyMCT, applyX, phaseFlip, Function.update_idem,
      Function.update_same, hall, hK, hb, hb0]
    linear_combination (-ψ b) * invSqrt2_sq

/-- The all-zeros basis assignment. -/
def zerosB (n : ℕ) : Fin n → Bool := fun _ => false

/-- Intermediate state of the Hadamard cascade started from `|0...0⟩`:
after the qubits in `m` have gone through `H`, the state is uniform over
the assignments that are zero outside `m`, with amplitude
`invSqrt2 ^ m.length`. -/
def hSt {n : ℕ} (m : List (Fin n)) : State n :=
  fun b => invSqrt2 ^ m.length * (if ∀ i, i ∉ m → b i = false then 1 else 0)

theorem initState_eq_hSt {n : ℕ} : initState n = hSt [] := by
  funext b
  simp [initState, hSt]

/-- One Hadamard step of the cascade. -/
theorem applyH_hSt {n : ℕ} {m : List (Fin n)} {q : Fin n} (hq : q ∉ m) :
    applyH q (hSt m) = hSt (q :: m) := by
  funext b
  have hiff : (∀ i, i ∉ m → Function.update b q false i = false) ↔
      (∀ i, i ∉ (q :: m) → b i = false) := by
    constructor
    · intro h i hi
      have h1 : i ≠ q := fun e => hi (e ▸ List.mem_cons_self q m)
      have h2 : i ∉ m := fun e => hi (List.mem_cons_of_mem q e)
      have := h i h2
      rwa [Function.update_noteq h1] at this
    · intro h i hi
      by_cases hiq : i = q
      · subst hiq; rw [Function.update_same]
      · rw [Function.update_noteq hiq]
        exact h i (by simp [List.mem_cons, hiq, hi])
  have hfalse : ¬ (∀ i, i ∉ m → Function.update b q true i = false) := by
    intro h
    have := h q hq
    rw [Function.update_same] at this
    exact absurd this (by simp)
  simp only [applyH, hSt, if_neg hfalse, mul_zero, neg_zero, ite_self,
    if_congr hiff rfl rfl, List.length_cons]
  ring

/-- The Hadamard cascade, from any already-processed set `m`. -/
theorem applyAll_H_hSt {n : ℕ} (l : List (Fin n)) (m : List (Fin n))
    (h : (l ++ m).Nodup) :
    applyAll l applyH (hSt m) = hSt (l.reverse ++ m) := by
  induction l generalizing m with
  | nil => simp [applyAll_nil]
  | cons q l ih =>
      have h' : (q :: (l ++ m)).Nodup := by simpa using h
      have hq : q ∉ m := by
        have := (List.nodup_cons.mp h').1
        exact fun e => this (List.mem_append_right l e)
      have hperm : (l ++ q :: m).Nodup :=
        (List.perm_middle.nodup_iff).mpr h'
      rw [applyAll_cons, applyH_hSt hq, ih (q :: m) hperm]
      simp [List.reverse_cons, List.append_assoc]

/-- The assignments that are zero outside the list `l`. -/
def freeSet {n : ℕ} (l : List (Fin n)) : Finset (Fin n → Bool) :=
  Finset.univ.filter (fun x => ∀ i, i ∉ l → x i = false)

theorem mem_freeSet {n : ℕ} {l : List (Fin n)} {x : Fin n → Bool} :
    x ∈ freeSet l ↔ ∀ i, i ∉ l → x i = false := by
  simp [freeSet]

theorem freeSet_nil {n : ℕ} :
    freeSet ([] : List (Fin n)) = {zerosB n} := by
  ext x
  simp only [mem_freeSet, List.not_mem_nil, not_false_iff, forall_true_left,
    Finset.mem_singleton]
  constructor
  · intro h; funext i; exact h i
  · intro h i; rw [h]; rfl

theorem freeSet_of_complete {n : ℕ} {l : List (Fin n)} (h : ∀ i, i ∈ l) :
    freeSet l = Finset.univ := by
  ext x
  simp only [mem_freeSet, Finset.mem_univ, iff_true]
  intro i hi
  exact absurd (h i) hi

/-- Splitting the free assignments of `q :: l` by the value of bit `q`. -/
theorem freeSet_cons_sum {n : ℕ} {l : List (Fin n)} {q : Fin n} (hq : q ∉ l)
    (f : (Fin n → Bool) → Amp) :
    ∑ x ∈ freeSet (q :: l), f x =
      (∑ x ∈ freeSet l, f x) +
        ∑ x ∈ freeSet l, f (Function.update x q true) := by
  have hvalq : ∀ x ∈ freeSet l, x q = false := fun x hx =>
    (mem_freeSet.mp hx) q hq
  have himg : freeSet (q :: l) =
      freeSet l ∪ (freeSet l).image (fun x => Function.update x q true) := by
    ext x
    simp only [Finset.mem_union, Finset.mem_image, mem_freeSet]
    constructor
    · intro hx
      rcases hxq : x q with _ | _
      · left
        intro i hi
        by_cases hiq : i = q
        · rw [hiq]; exact hxq
        · exact hx i (by simp [List.mem_cons, hiq, hi])
      · right
        refine ⟨Function.update x q false, ?_, ?_⟩
        · intro i hi
          by_cases hiq : i = q
          · rw [hiq]; exact Function.update_same q false x
          · rw [Function.update_noteq hiq]
            exact hx i (by simp [List.mem_cons, hiq, hi])
        · rw [Function.update_idem, ← hxq]
          exact Function.update_eq_self q x
    · intro hx
      rcases hx with hx | ⟨y, hy, rfl⟩
      · intro i hi
        exact hx i (fun e => hi (List.mem_cons_of_mem q e))
      · intro i hi
        have h1 : i ≠ q := fun e => hi (e ▸ List.mem_cons_self q l)
        have h2 : i ∉ l := fun e => hi (List.mem_cons_of_mem q e)
        rw [Function.update_noteq h1]
        exact hy i h2
  have hdisj : Disjoint (freeSet l)
      ((freeSet l).image (fun x => Function.update x q true)) := by
    rw [Finset.disjoint_left]
    intro x hx hximg
    rcases Finset.mem_image.mp hximg with ⟨y, _, hy⟩
    have : x q = true := by rw [← hy]; exact Function.update_same q true y
    rw [hvalq x hx] at this
    exact absurd this (by simp)
  have hinj : ∀ x ∈ freeSet l, ∀ y ∈ freeSet l,
      Function.update x q true = Function.update y q true → x = y := by
    intro x hx y hy hxy
    funext i
    by_cases hiq : i = q
    · subst hiq; rw [hvalq x hx, hvalq y hy]
    · have := congrFun hxy i
      rwa [Function.update_noteq hiq, Function.update_noteq hiq] at this
  rw [himg, Finset.sum_union hdisj, Finset.sum_image hinj]

/-- Value of the Hadamard cascade at the all-zeros assignment: the scaled
sum of the input amplitudes over the assignments supported on `l`. -/
theorem applyAll_H_at_zeros {n : ℕ} (l : List (Fin n)) (hl : l.Nodup)
    (ψ : State n) :
    applyAll l applyH ψ (zerosB n) =
      invSqrt2 ^ l.length * ∑ x ∈ freeSet l, ψ x := by
  induction l generalizing ψ with
  | nil =>
      simp [applyAll_nil, freeSet_nil, Finset.sum_singleton]
  | cons q l ih =>
      have hq : q ∉ l := (List.nodup_cons.mp hl).1
      rw [applyAll_cons, ih (List.nodup_cons.mp hl).2 (applyH q ψ)]
      have hsum : ∑ x ∈ freeSet l, applyH q ψ x =
          invSqrt2 * ((∑ x ∈ freeSet l, ψ x) +
            ∑ x ∈ freeSet l, ψ (Function.update x q true)) := by
        rw [← Finset.sum_add_distrib, Finset.mul_sum]
        refine Finset.sum_congr rfl ?_
        intro x hx
        have hxq : x q = false := (mem_freeSet.mp hx) q hq
        have hx0 : Function.update x q false = x := by
          rw [← hxq]; exact Function.update_eq_self q x
        simp [applyH, hxq, hx0]
      rw [hsum, freeSet_cons_sum hq ψ, List.length_cons]
      ring

/-- Bool test for the all-zeros assignment. -/
def isZeros (n : ℕ) (b : Fin n → Bool) : Bool := decide (∀ i, b i = false)

/-- Two booleans agreeing as propositions are equal. -/
theorem bool_eq_of_iff {a b : Bool} (h : a = true ↔ b = true) : a = b := by
  cases a <;> cases b <;> simp_all

/-- Conjugating the phase flip on `|0...0⟩` by Hadamards on every qubit
yields `I - 2|s⟩⟨s|`: inversion about the mean, up to the sign. -/
theorem hall_flip_zeros_hall {n : ℕ} (l : List (Fin n)) (hl : l.Nodup)
    (hcomp : ∀ i, i ∈ l) (ψ : State n) :
    applyAll l applyH (phaseFlip (isZeros n) (applyAll l applyH ψ)) =
      fun b => ψ b -
        2 * (invSqrt2 ^ l.length * invSqrt2 ^ l.length) * ∑ x, ψ x := by
  have hA : phaseFlip (isZeros n) (applyAll l applyH ψ) =
      fun b => applyAll l applyH ψ b +
        (-(2 * applyAll l applyH ψ (zerosB n))) * hSt [] b := by
    funext b
    rcases h : isZeros n b with _ | _
    · have hz : ¬ (∀ i, b i = false) := of_decide_eq_false h
      have hz' : ¬ (∀ i, i ∉ ([] : List (Fin n)) → b i = false) :=
        fun hc => hz fun i => hc i (List.not_mem_nil i)
      simp only [phaseFlip, h, Bool.false_eq_true, if_false, hSt,
        List.length_nil, pow_zero, one_mul, if_neg hz', mul_zero, add_zero]
    · have hb : b = zerosB n := by
        funext i
        exact of_decide_eq_true h i
      subst hb
      have hz' : ∀ i, i ∉ ([] : List (Fin n)) → zerosB n i = false :=
        fun i _ => rfl
      simp only [phaseFlip, h, if_true, hSt, List.length_nil, pow_zero,
        one_mul, if_pos hz']
      ring
  rw [hA, applyAll_H_add_smul l (applyAll l applyH ψ) (hSt [])]
  have hinv : applyAll l applyH (applyAll l applyH ψ) = ψ :=
    applyAll_H_involutive l ψ
  have hdel : applyAll l applyH (hSt ([] : List (Fin n))) = hSt l.reverse := by
    have := applyAll_H_hSt l [] (by simpa using hl)
    simpa using this
  have hded : ∀ b, hSt l.reverse b = invSqrt2 ^ l.length := by
    intro b
    have hcond : ∀ i, i ∉ l.reverse → b i = false := fun i hi =>
      absurd (List.mem_reverse.mpr (hcomp i)) hi
    show invSqrt2 ^ l.reverse.length *
        (if ∀ i, i ∉ l.reverse → b i = false then 1 else 0) =
      invSqrt2 ^ l.length
    rw [if_pos hcond, List.length_reverse, mul_one]
  have hval : applyAll l applyH ψ (zerosB n) =
      invSqrt2 ^ l.length * ∑ x, ψ x := by
    rw [applyAll_H_at_zeros l hl ψ, freeSet_of_complete hcomp]
  funext b
  rw [hinv, hdel, hded b, hval]
  ring

/-- The list `[0, 1, ..., n-1]` of all qubit indices, as the notebook's
`range` loops produce it. -/
def qubitList (n : ℕ) : List (Fin n) :=
  (List.range n).pmap (fun q h => (⟨q, h⟩ : Fin n))
    (fun q hq => List.mem_range.mp hq)

/-- The control qubits `[0, ..., n-2]` of the diffuser's Toffoli. -/
def ctrlList (n : ℕ) : List (Fin n) :=
  (List.range (n - 1)).pmap (fun q h => (⟨q, h⟩ : Fin n))
    (fun q hq => lt_of_lt_of_le (List.mem_range.mp hq) (Nat.sub_le n 1))

/-- The diffuser's target qubit `n - 1`. -/
def lastQubit (n : ℕ) (h : 0 < n) : Fin n := ⟨n - 1, Nat.sub_lt h Nat.one_pos⟩

theorem mem_qubitList (n : ℕ) (i : Fin n) : i ∈ qubitList n := by
  rw [qubitList, List.mem_pmap]
  exact ⟨(i : ℕ), List.mem_range.mpr i.isLt, Fin.ext rfl⟩

theorem qubitList_nodup (n : ℕ) : (qubitList n).Nodup :=
  List.Nodup.pmap (fun a _ b _ e => congrArg Fin.val e) (List.nodup_range n)

theorem qubitList_length (n : ℕ) : (qubitList n).length = n := by
  rw [qubitList, List.length_pmap, List.length_range]

theorem mem_ctrlList {n : ℕ} {i : Fin n} :
    i ∈ ctrlList n ↔ (i : ℕ) < n - 1 := by
  rw [ctrlList, List.mem_pmap]
  constructor
  · rintro ⟨a, ha, rfl⟩
    exact List.mem_range.mp ha
  · intro hi
    exact ⟨(i : ℕ), List.mem_range.mpr hi, Fin.ext rfl⟩

theorem ctrlList_nodup (n : ℕ) : (ctrlList n).Nodup :=
  List.Nodup.pmap (fun a _ b _ e => congrArg Fin.val e) (List.nodup_range _)

theorem lastQubit_not_mem_ctrlList {n : ℕ} (h : 0 < n) :
    lastQubit n h ∉ ctrlList n := by
  rw [mem_ctrlList]
  simp [lastQubit]

/-- The diffuser's action, gate by gate in the order the source appends
them: `H` on every qubit, `X` on every qubit, `H` on the last qubit, the
multi-controlled Toffoli, `H` on the last qubit, `X` on every qubit, `H`
on every qubit. -/
def diffuserOp (n : ℕ) (h : 0 < n) (ψ : State n) : State n :=
  applyAll (qubitList n) applyH (applyAll (qubitList n) applyX
    (applyH (lastQubit n h) (applyMCT (ctrlList n) (lastQubit n h)
      (applyH (lastQubit n h) (applyAll (qubitList n) applyX
        (applyAll (qubitList n) applyH ψ))))))

/-- The key semantic fact: the diffuser acts as `I - 2|s⟩⟨s|`, the
negation of the inversion about the mean. -/
theorem diffuserOp_eq (n : ℕ) (h : 0 < n) (ψ : State n) :
    diffuserOp n h ψ =
      fun b => ψ b - 2 * (invSqrt2 ^ n * invSqrt2 ^ n) * ∑ x, ψ x := by
  rw [diffuserOp,
    applyH_MCT_applyH (lastQubit_not_mem_ctrlList h)
      (applyAll (qubitList n) applyX (applyAll (qubitList n) applyH ψ))]
  have hp1 : (fun b => (ctrlList n).all b && b (lastQubit n h)) =
      fun b => (qubitList n).all b := by
    funext b
    refine bool_eq_of_iff ?_
    simp only [Bool.and_eq_true, List.all_eq_true]
    constructor
    · rintro ⟨hc, hlast⟩ i hi
      by_cases hi' : (i : ℕ) < n - 1
      · exact hc i (mem_ctrlList.mpr hi')
      · have he : i = lastQubit n h := Fin.ext (by have := i.isLt; simp [lastQubit]; omega)
        rw [he]; exact hlast
    · intro hall
      exact ⟨fun i _ => hall i (mem_qubitList n i),
        hall _ (mem_qubitList n _)⟩
  rw [hp1,
    applyAll_X_phaseFlip (qubitList n) _ (applyAll (qubitList n) applyH ψ)]
  have hp2 : (fun b => (qubitList n).all (flipAll (qubitList n) b)) =
      isZeros n := by
    funext b
    refine bool_eq_of_iff ?_
    simp only [List.all_eq_true, isZeros, decide_eq_true_eq]
    constructor
    · intro hall i
      have := hall i (mem_qubitList n i)
      rw [flipAll_apply (qubitList n) (qubitList_nodup n) b i,
        if_pos (mem_qubitList n i)] at this
      simpa using this
    · intro hz i _
      rw [flipAll_apply (qubitList n) (qubitList_nodup n) b i,
        if_pos (mem_qubitList n i), hz i]
      rfl
  rw [hp2,
    hall_flip_zeros_hall (qubitList n) (qubitList_nodup n) (mem_qubitList n) ψ,
    qubitList_length n]

/-- A gate instruction as the notebook appends it: one of the five gate
kinds the code uses, addressed by (integer) qubit index. -/
inductive Gate where
  | h (q : ℕ)
  | x (q : ℕ)
  | z (q : ℕ)
  | cz (a b : ℕ)
  | mct (cs : List ℕ) (t : ℕ)
deriving DecidableEq, Repr

/-- An instruction of a circuit: a gate, a measurement, a barrier (these
two are what qiskit's `measure_all` appends), or the Aer simulator's
`save_statevector` marker. -/
inductive Op where
  | gate (g : Gate)
  | measure (q : ℕ)
  | barrier
  | saveStatevector
deriving DecidableEq, Repr

/-- Check an integer qubit index against the register size, as qiskit does
when an instruction is appended/run. -/
def toFin (n q : ℕ) : Option (Fin n) :=
  if h : q < n then some ⟨q, h⟩ else none

/-- Check a list of control indices. -/
def toFins (n : ℕ) : List ℕ → Option (List (Fin n))
  | [] => some []
  | q :: qs => do
      let i ← toFin n q
      let is ← toFins n qs
      pure (i :: is)

/-- Run one gate on a statevector; `none` models the SDK rejecting an
instruction (an out-of-range index, or repeated qubits in a controlled
gate). -/
def evalGate (n : ℕ) (g : Gate) (ψ : State n) : Option (State n) :=
  match g with
  | .h q => (toFin n q).map fun i => applyH i ψ
  | .x q => (toFin n q).map fun i => applyX i ψ
  | .z q => (toFin n q).map fun i => applyZ i ψ
  | .cz a b => do
      let i ← toFin n a
      let j ← toFin n b
      if i = j then none else pure (applyCZ i j ψ)
  | .mct cs t => do
      let is ← toFins n cs
      let j ← toFin n t
      if is.Nodup ∧ j ∉ is then pure (applyMCT is j ψ) else none

/-- Run one instruction of a statevector simulation.  A barrier and the
`save_statevector` marker leave the state unchanged; a measurement is not
a statevector transformation (the notebook only requests the statevector
of a measurement-free copy of its circuit), so it is rejected. -/
def evalOp (n : ℕ) (op : Op) (ψ : State n) : Option (State n) :=
  match op with
  | .gate g => evalGate n g ψ
  | .barrier => some ψ
  | .saveStatevector => some ψ
  | .measure _ => none

/-- Run a circuit (a list of instructions) on a statevector. -/
def evalOps (n : ℕ) (ops : List Op) (ψ : State n) : Option (State n) :=
  match ops with
  | [] => some ψ
  | op :: rest => (evalOp n op ψ).bind (evalOps n rest)

theorem evalOps_append (n : ℕ) (l1 l2 : List Op) (ψ : State n) :
    evalOps n (l1 ++ l2) ψ = (evalOps n l1 ψ).bind (evalOps n l2) := by
  induction l1 generalizing ψ with
  | nil => simp [evalOps]
  | cons op l1 ih =>
      rw [List.cons_append]
      show (evalOp n op ψ).bind (evalOps n (l1 ++ l2)) =
        ((evalOp n op ψ).bind (evalOps n l1)).bind (evalOps n l2)
      cases evalOp n op ψ with
      | none => rfl
      | some φ => simp only [Option.some_bind]; exact ih φ

/-- The notebook's `initialize_s`: put each listed qubit through a
Hadamard gate (appending to the given circuit) and return the circuit. -/
def initialize_s (circuit : List Op) (qubits : List ℕ) : List Op :=
  qubits.foldl (fun c q => c ++ [Op.gate (Gate.h q)]) circuit

/-- The notebook's `diffuser`: build a fresh `nqubits`-qubit circuit, apply
`H` to every qubit, `X` to every qubit, `H` on the last qubit, a
multi-controlled Toffoli with qubits `0..nqubits-2` as controls and
`nqubits-1` as target, `H` on the last qubit, `X` to every qubit and `H`
to every qubit, and return it (the source wraps it into a named composite
gate `U_s`; we keep its instruction list). -/
def diffuser (nqubits : ℕ) : List Op :=
  let qc : List Op := []
  let qc := (List.range nqubits).foldl (fun c q => c ++ [Op.gate (Gate.h q)]) qc
  let qc := (List.range nqubits).foldl (fun c q => c ++ [Op.gate (Gate.x q)]) qc
  let qc := qc ++ [Op.gate (Gate.h (nqubits - 1))]
  let qc := qc ++ [Op.gate (Gate.mct (List.range (nqubits - 1)) (nqubits - 1))]
  let qc := qc ++ [Op.gate (Gate.h (nqubits - 1))]
  let qc := (List.range nqubits).foldl (fun c q => c ++ [Op.gate (Gate.x q)]) qc
  let qc := (List.range nqubits).foldl (fun c q => c ++ [Op.gate (Gate.h q)]) qc
  qc

/-- Appending elements one by one in a loop is appending the mapped list. -/
theorem foldl_append_map {α : Type} (l : List α) (c : List Op)
    (f : α → Op) :
    l.foldl (fun c a => c ++ [f a]) c = c ++ l.map f := by
  induction l generalizing c with
  | nil => simp
  | cons a l ih => simp [ih]

/-- The diffuser's instruction list, written out. -/
theorem diffuser_eq (nqubits : ℕ) :
    diffuser nqubits =
      (List.range nqubits).map (fun q => Op.gate (Gate.h q)) ++
      ((List.range nqubits).map (fun q => Op.gate (Gate.x q)) ++
      ([Op.gate (Gate.h (nqubits - 1))] ++
      ([Op.gate (Gate.mct (List.range (nqubits - 1)) (nqubits - 1))] ++
      ([Op.gate (Gate.h (nqubits - 1))] ++
      ((List.range nqubits).map (fun q => Op.gate (Gate.x q)) ++
      (List.range nqubits).map (fun q => Op.gate (Gate.h q))))))) := by
  rw [diffuser]
  simp only [foldl_append_map, List.nil_append, List.append_assoc]

theorem toFin_eq_some {n q : ℕ} (hq : q < n) : toFin n q = some ⟨q, hq⟩ :=
  dif_pos hq

theorem toFins_eq_some (n : ℕ) (qs : List ℕ) (H : ∀ q ∈ qs, q < n) :
    toFins n qs = some (qs.pmap (fun q h => (⟨q, h⟩ : Fin n)) H) := by
  induction qs with
  | nil => rfl
  | cons q qs ih =>
      rw [toFins, toFin_eq_some (H q (List.mem_cons_self q qs)),
        ih fun a ha => H a (List.mem_cons_of_mem q ha)]
      rfl

/-- A block of identical one-qubit gates evaluates to the fold of the
corresponding operators. -/
theorem evalOps_map_gate (n : ℕ) (mkG : ℕ → Gate)
    (sem : Fin n → State n → State n)
    (hone : ∀ (q : ℕ) (hq : q < n) (ψ : State n),
      evalGate n (mkG q) ψ = some (sem ⟨q, hq⟩ ψ))
    (qs : List ℕ) (H : ∀ q ∈ qs, q < n) (ψ : State n) :
    evalOps n (qs.map fun q => Op.gate (mkG q)) ψ =
      some (applyAll (qs.pmap (fun q h => (⟨q, h⟩ : Fin n)) H) sem ψ) := by
  induction qs generalizing ψ with
  | nil => rfl
  | cons q qs ih =>
      rw [List.map_cons]
      show (evalOp n (Op.gate (mkG q)) ψ).bind _ = _
      rw [evalOp, hone q (H q (List.mem_cons_self q qs)) ψ, Option.some_bind,
        ih (fun a ha => H a (List.mem_cons_of_mem q ha))]
      rfl

theorem evalGate_h {n : ℕ} (q : ℕ) (hq : q < n) (ψ : State n) :
    evalGate n (Gate.h q) ψ = some (applyH ⟨q, hq⟩ ψ) := by
  rw [evalGate, toFin_eq_some hq]; rfl

theorem evalGate_x {n : ℕ} (q : ℕ) (hq : q < n) (ψ : State n) :
    evalGate n (Gate.x q) ψ = some (applyX ⟨q, hq⟩ ψ) := by
  rw [evalGate, toFin_eq_some hq]; rfl

theorem evalGate_mct_diffuser {n : ℕ} (h : 0 < n) (ψ : State n) :
    evalGate n (Gate.mct (List.range (n - 1)) (n - 1)) ψ =
      some (applyMCT (ctrlList n) (lastQubit n h) ψ) := by
  rw [evalGate,
    toFins_eq_some n (List.range (n - 1))
      (fun q hq => lt_of_lt_of_le (List.mem_range.mp hq) (Nat.sub_le n 1)),
    toFin_eq_some (Nat.sub_lt h Nat.one_pos)]
  show (if (ctrlList n).Nodup ∧ lastQubit n h ∉ ctrlList n then _ else _) = _
  rw [if_pos ⟨ctrlList_nodup n, lastQubit_not_mem_ctrlList h⟩]
  rfl

theorem evalOps_singleton_gate {n : ℕ} {g : Gate} {ψ φ : State n}
    (h : evalGate n g ψ = some φ) :
    evalOps n [Op.gate g] ψ = some φ := by
  show (evalGate n g ψ).bind _ = _
  rw [h]
  rfl

/-- Running the diffuser's instruction list is applying the diffuser
operator. -/
theorem diffuser_bridge (n : ℕ) (h : 0 < n) (ψ : State n) :
    evalOps n (diffuser n) ψ = some (diffuserOp n h ψ) := by
  have hH : ∀ ψ : State n,
      evalOps n ((List.range n).map fun q => Op.gate (Gate.h q)) ψ =
        some (applyAll (qubitList n) applyH ψ) := fun ψ =>
    evalOps_map_gate n Gate.h applyH (fun q hq ψ => evalGate_h q hq ψ)
      (List.range n) (fun q hq => List.mem_range.mp hq) ψ
  have hX : ∀ ψ : State n,
      evalOps n ((List.range n).map fun q => Op.gate (Gate.x q)) ψ =
        some (applyAll (qubitList n) applyX ψ) := fun ψ =>
    evalOps_map_gate n Gate.x applyX (fun q hq ψ => evalGate_x q hq ψ)
      (List.range n) (fun q hq => List.mem_range.mp hq) ψ
  have hlast : (n - 1) < n := Nat.sub_lt h Nat.one_pos
  rw [diffuser_eq, evalOps_append, hH ψ, Option.some_bind,
    evalOps_append, hX _, Option.some_bind,
    evalOps_append,
    evalOps_singleton_gate (evalGate_h (n - 1) hlast _), Option.some_bind,
    evalOps_append,
    evalOps_singleton_gate (evalGate_mct_diffuser h _), Option.some_bind,
    evalOps_append,
    evalOps_singleton_gate (evalGate_h (n - 1) hlast _), Option.some_bind,
    evalOps_append, hX _, Option.some_bind, hH _]
  rfl

/-- Running the diffuser's instruction list: explicit inversion about the
mean (with sign `-1`). -/
theorem diffuser_eval (n : ℕ) (h : 0 < n) (ψ : State n) :
    evalOps n (diffuser n) ψ =
      some (fun b => ψ b -
        2 * (invSqrt2 ^ n * invSqrt2 ^ n) * ∑ x, ψ x) := by
  rw [diffuser_bridge n h ψ, diffuserOp_eq n h ψ]

theorem evalGate_z {n : ℕ} (q : ℕ) (hq : q < n) (ψ : State n) :
    evalGate n (Gate.z q) ψ = some (applyZ ⟨q, hq⟩ ψ) := by
  rw [evalGate, toFin_eq_some hq]; rfl

theorem evalGate_cz {n : ℕ} (a b : ℕ) (ha : a < n) (hb : b < n)
    (hne : a ≠ b) (ψ : State n) :
    evalGate n (Gate.cz a b) ψ = some (applyCZ ⟨a, ha⟩ ⟨b, hb⟩ ψ) := by
  rw [evalGate, toFin_eq_some ha, toFin_eq_some hb]
  show (if (⟨a, ha⟩ : Fin n) = ⟨b, hb⟩ then none else _) = _
  rw [if_neg fun e => hne (congrArg Fin.val e)]
  rfl

/-- A state of a complete Hadamard cascade is uniform. -/
theorem hSt_complete {n : ℕ} {m : List (Fin n)} (hc : ∀ i, i ∈ m)
    (b : Fin n → Bool) : hSt m b = invSqrt2 ^ m.length := by
  have hcond : ∀ i, i ∉ m → b i = false := fun i hi => absurd (hc i) hi
  show invSqrt2 ^ m.length * (if ∀ i, i ∉ m → b i = false then 1 else 0) = _
  rw [if_pos hcond, mul_one]

/-- The 2-qubit basis assignment with bit 0 equal to `v0` and bit 1 equal
to `v1` (qiskit's basis label `|v1 v0⟩`). -/
def bvec (v0 v1 : Bool) : Fin 2 → Bool := fun i => if i = 0 then v0 else v1

theorem bvec_zero (v0 v1 : Bool) : bvec v0 v1 0 = v0 := rfl

theorem bvec_one (v0 v1 : Bool) : bvec v0 v1 1 = v1 := rfl

theorem eq_bvec (b : Fin 2 → Bool) : b = bvec (b 0) (b 1) := by
  funext i
  fin_cases i <;> rfl

/-- Sum of an amplitude function over the four 2-qubit basis states. -/
theorem sum_fin2bool (f : (Fin 2 → Bool) → Amp) :
    ∑ x, f x = f (bvec false false) + f (bvec false true) +
      f (bvec true false) + f (bvec true true) := by
  have huniv : (Finset.univ : Finset (Fin 2 → Bool)) =
      {bvec false false, bvec false true, bvec true false, bvec true true} := by
    ext x
    simp only [Finset.mem_univ, true_iff, Finset.mem_insert,
      Finset.mem_singleton]
    rcases h0 : x 0 with _ | _ <;> rcases h1 : x 1 with _ | _
    · exact Or.inl (by rw [eq_bvec x, h0, h1])
    · exact Or.inr (Or.inl (by rw [eq_bvec x, h0, h1]))
    · exact Or.inr (Or.inr (Or.inl (by rw [eq_bvec x, h0, h1])))
    · exact Or.inr (Or.inr (Or.inr (by rw [eq_bvec x, h0, h1])))
  rw [huniv, Finset.sum_insert (by decide), Finset.sum_insert (by decide),
    Finset.sum_insert (by decide), Finset.sum_singleton]
  ring

/-- The inline diffuser's instruction list, exactly as the notebook's cell
appends it: `h([0,1])`, `z([0,1])`, `cz(0,1)`, `h([0,1])`. -/
def inline_diffuser_ops : List Op :=
  [Op.gate (Gate.h 0), Op.gate (Gate.h 1),
   Op.gate (Gate.z 0), Op.gate (Gate.z 1),
   Op.gate (Gate.cz 0 1),
   Op.gate (Gate.h 0), Op.gate (Gate.h 1)]

theorem evalOps_cons_gate {n : ℕ} {g : Gate} {ψ φ : State n}
    (rest : List Op) (h : evalGate n g ψ = some φ) :
    evalOps n (Op.gate g :: rest) ψ = evalOps n rest φ := by
  show (evalGate n g ψ).bind _ = _
  rw [h]
  rfl

/-- Running the inline diffuser, reduced to the semantic operators. -/
theorem inline_diffuser_bridge (ψ : State 2) :
    evalOps 2 inline_diffuser_ops ψ =
      some (applyH 1 (applyH 0 (applyCZ 0 1 (applyZ 1 (applyZ 0
        (applyH 1 (applyH 0 ψ))))))) := by
  rw [inline_diffuser_ops,
    evalOps_cons_gate _ (evalGate_h 0 (by omega) ψ),
    evalOps_cons_gate _ (evalGate_h 1 (by omega) _),
    evalOps_cons_gate _ (evalGate_z 0 (by omega) _),
    evalOps_cons_gate _ (evalGate_z 1 (by omega) _),
    evalOps_cons_gate _ (evalGate_cz 0 1 (by omega) (by omega) (by omega) _),
    evalOps_cons_gate _ (evalGate_h 0 (by omega) _),
    evalOps_cons_gate _ (evalGate_h 1 (by omega) _)]
  rfl

/-- The Hadamard gate commutes with negation of the state. -/
theorem applyH_neg {n : ℕ} (q : Fin n) (χ : State n) :
    applyH q (fun b => -(χ b)) = fun b => -(applyH q χ b) := by
  funext b
  rcases hb : b q with _ | _ <;> simp [applyH, hb] <;> ring

/-- The 2-qubit all-zeros test, componentwise. -/
theorem isZeros_two (b : Fin 2 → Bool) : isZeros 2 b = (! b 0 && ! b 1) := by
  refine bool_eq_of_iff ?_
  simp only [isZeros, decide_eq_true_eq, Bool.and_eq_true, Bool.not_eq_true']
  rw [Fin.forall_fin_two]

/-- The notebook's inline `Z(0), Z(1), CZ(0,1)` block is the phase flip on
`|00⟩` with an overall sign of `-1`. -/
theorem zz_cz (χ : State 2) :
    applyCZ 0 1 (applyZ 1 (applyZ 0 χ)) =
      fun b => -(phaseFlip (isZeros 2) χ b) := by
  funext b
  rcases hb0 : b 0 with _ | _ <;> rcases hb1 : b 1 with _ | _ <;>
    simp [applyCZ, applyZ, phaseFlip, isZeros_two, hb0, hb1]

/-- The inline diffuser acts as `2|s⟩⟨s| - I`: exactly the inversion about
the mean (sign `+1`). -/
theorem inline_diffuser_action (ψ : State 2) :
    evalOps 2 inline_diffuser_ops ψ =
      some (fun b =>
        2 * (invSqrt2 ^ 2 * invSqrt2 ^ 2) * (∑ x, ψ x) - ψ b) := by
  rw [inline_diffuser_bridge ψ]
  congr 1
  have key : applyH 1 (applyH 0 (phaseFlip (isZeros 2) (applyH 1 (applyH 0 ψ)))) =
      fun b => ψ b - 2 * (invSqrt2 ^ 2 * invSqrt2 ^ 2) * ∑ x, ψ x := by
    have h := hall_flip_zeros_hall (qubitList 2) (qubitList_nodup 2)
      (mem_qubitList 2) ψ
    rw [qubitList_length 2] at h
    exact h
  rw [zz_cz (applyH 1 (applyH 0 ψ)), applyH_neg, applyH_neg, key]
  funext b
  ring

/-- The notebook's circuit, cell by cell: `QuantumCircuit(n)` with `n = 2`
starts empty; `initialize_s(grover_circuit, [0,1])` appends the Hadamards;
`grover_circuit.cz(0,1)` appends the oracle; the inline diffuser cell
appends its seven gates; the simulation cell copies the circuit and
appends `save_statevector` to the copy. -/
def grover_circuit_0 : List Op := []

def grover_circuit_1 : List Op := initialize_s grover_circuit_0 [0, 1]

def grover_circuit_2 : List Op := grover_circuit_1 ++ [Op.gate (Gate.cz 0 1)]

def grover_circuit_3 : List Op := grover_circuit_2 ++ inline_diffuser_ops

def grover_circuit_sim : List Op := grover_circuit_3 ++ [Op.saveStatevector]

/-- The statevector the notebook's simulation cell requests: the full
circuit (with the `save_statevector` marker) run from `|00⟩`. -/
def grover_statevec : Option (State 2) := evalOps 2 grover_circuit_sim (initState 2)

/-- The state after the Hadamards and the oracle: uniform with the
amplitude of `|11⟩` negated. -/
def oracleState : State 2 :=
  fun b => if b 0 && b 1 then -(invSqrt2 ^ 2) else invSqrt2 ^ 2

theorem evalOps_save {n : ℕ} (ψ : State n) :
    evalOps n [Op.saveStatevector] ψ = some ψ := rfl

theorem oracle_stage_eval :
    evalOps 2 [Op.gate (Gate.h 0), Op.gate (Gate.h 1), Op.gate (Gate.cz 0 1)]
      (initState 2) = some oracleState := by
  rw [evalOps_cons_gate _ (evalGate_h 0 (by omega) _),
    evalOps_cons_gate _ (evalGate_h 1 (by omega) _),
    evalOps_cons_gate _ (evalGate_cz 0 1 (by omega) (by omega) (by omega) _)]
  show some (applyCZ 0 1 (applyH 1 (applyH 0 (initState 2)))) = some oracleState
  congr 1
  rw [initState_eq_hSt, applyH_hSt (List.not_mem_nil (0 : Fin 2)),
    applyH_hSt (show (1 : Fin 2) ∉ [(0 : Fin 2)] by decide)]
  funext b
  have hc : hSt [(1 : Fin 2), 0] b = invSqrt2 ^ 2 :=
    hSt_complete (by decide) b
  rcases hb0 : b 0 with _ | _ <;> rcases hb1 : b 1 with _ | _ <;>
    simp [applyCZ, applyZ, oracleState, hb0, hb1, hc,
      hSt_complete (show ∀ i : Fin 2, i ∈ [1, 0] by decide)]

theorem sum_oracleState :
    ∑ x, oracleState x = invSqrt2 ^ 2 + invSqrt2 ^ 2 := by
  rw [sum_fin2bool]
  simp only [oracleState, bvec_zero, bvec_one, Bool.and_false, Bool.and_true,
    Bool.false_and, Bool.true_and, if_false, if_true, Bool.false_eq_true]
  ring

/-- The exact final statevector of the notebook's circuit: `+|11⟩`. -/
theorem grover_statevec_eq :
    grover_statevec = some (fun b => if b 0 && b 1 then 1 else 0) := by
  show evalOps 2 grover_circuit_sim (initState 2) = _
  have hsplit : grover_circuit_sim =
      [Op.gate (Gate.h 0), Op.gate (Gate.h 1), Op.gate (Gate.cz 0 1)] ++
        (inline_diffuser_ops ++ [Op.saveStatevector]) := rfl
  rw [hsplit, evalOps_append, oracle_stage_eval, Option.some_bind,
    evalOps_append, inline_diffuser_action oracleState, Option.some_bind,
    evalOps_save]
  congr 1
  funext b
  rw [sum_oracleState]
  rcases hb0 : b 0 with _ | _ <;> rcases hb1 : b 1 with _ | _ <;>
    simp only [oracleState, hb0, hb1, Bool.and_false, Bool.and_true,
      Bool.false_and, Bool.true_and, if_false, if_true, Bool.false_eq_true,
      sub_neg_eq_add]
  · linear_combination (2 * (invSqrt2 * invSqrt2) ^ 2 + invSqrt2 * invSqrt2) *
      invSqrt2_sq
  · linear_combination (2 * (invSqrt2 * invSqrt2) ^ 2 + invSqrt2 * invSqrt2) *
      invSqrt2_sq
  · linear_combination (2 * (invSqrt2 * invSqrt2) ^ 2 + invSqrt2 * invSqrt2) *
      invSqrt2_sq
  · linear_combination (2 * (invSqrt2 * invSqrt2) ^ 2 + invSqrt2 * invSqrt2 + 1) *
      invSqrt2_sq

/-- A sample 2-qubit state used to instantiate the universally quantified
theorems at a concrete input. -/
def witnessState : State 2 := fun b => if b 0 then 1 else 0

/-- C9: for every `nqubits ≥ 2`, the diffuser is an involution — running
its gate list twice returns every statevector unchanged. -/
theorem diffuser_involutive (n : ℕ) (hn : 2 ≤ n) (ψ : State n) :
    (evalOps n (diffuser n) ψ).bind (evalOps n (diffuser n)) = some ψ := by
  have h1 : 0 < n := by omega
  rw [diffuser_eval n h1 ψ, Option.some_bind, diffuser_eval n h1]
  congr 1
  funext b
  rw [Finset.sum_sub_distrib, Finset.sum_const, Finset.card_univ]
  have hcard : Fintype.card (Fin n → Bool) = 2 ^ n := by
    rw [Fintype.card_fun, Fintype.card_bool, Fintype.card_fin]
  rw [hcard, nsmul_eq_mul]
  have h2n : ((2 ^ n : ℕ) : Amp) * (invSqrt2 ^ n * invSqrt2 ^ n) = 1 := by
    push_cast
    have h2 : (2 : Amp) * (invSqrt2 * invSqrt2) = 1 := by
      rw [two_mul, invSqrt2_sq]
    calc (2 : Amp) ^ n * (invSqrt2 ^ n * invSqrt2 ^ n)
        = ((2 : Amp) * (invSqrt2 * invSqrt2)) ^ n := by
          rw [mul_pow, mul_pow]
      _ = 1 ^ n := by rw [h2]
      _ = 1 := one_pow n
  linear_combination (4 * (invSqrt2 ^ n * invSqrt2 ^ n) * (∑ x, ψ x)) * h2n

theorem diffuser_involutive_witness :
    2 ≤ 2 ∧ (evalOps 2 (diffuser 2) witnessState).bind
      (evalOps 2 (diffuser 2)) = some witnessState :=
  ⟨by omega, diffuser_involutive 2 (by omega) witnessState⟩

/-- C4: the inline diffuser the notebook actually applies (`h([0,1])`,
`z([0,1])`, `cz(0,1)`, `h([0,1])`) is, up to a global phase of `-1`,
the gate returned by the commented-out alternative `diffuser(2)`: on every
statevector their results differ exactly by the factor `-1`. -/
theorem inline_diffuser_equiv_diffuser_two :
    ∃ c : Amp, c * c = 1 ∧ ∀ ψ : State 2,
      evalOps 2 inline_diffuser_ops ψ =
        (evalOps 2 (diffuser 2) ψ).map fun φ => fun b => c * φ b := by
  refine ⟨-1, by ring, ?_⟩
  intro ψ
  rw [inline_diffuser_action ψ, diffuser_eval 2 (by omega) ψ]
  show some _ = some _
  congr 1
  funext b
  ring

/-- C3: the oracle `cz(0,1)` marks `|11⟩` by phase inversion: on every
2-qubit statevector it negates the amplitude of `|11⟩` and leaves the
amplitudes of `|00⟩`, `|01⟩` and `|10⟩` unchanged. -/
theorem oracle_cz_marks_target (ψ : State 2) :
    evalOps 2 [Op.gate (Gate.cz 0 1)] ψ =
      some (fun b => if b 0 && b 1 then -ψ b else ψ b) := by
  rw [evalOps_cons_gate _ (evalGate_cz 0 1 (by omega) (by omega) (by omega) ψ)]
  show some (applyCZ 0 1 ψ) = _
  congr 1
  funext b
  rcases hb0 : b 0 with _ | _ <;> rcases hb1 : b 1 with _ | _ <;>
    simp [applyCZ, applyZ, hb0, hb1]

/-- Probability of observing a basis state in a simulated statevector:
the squared amplitude (the amplitudes of this notebook are all real). -/
def probAt (o : Option (State 2)) (b : Fin 2 → Bool) : Amp :=
  (o.map fun φ => φ b * φ b).getD 0

/-- C1: the statevector produced by the fixed 2-qubit circuit (Hadamards,
oracle `cz(0,1)`, inline diffuser) assigns probability 1 to `|11⟩` and
probability 0 to `|00⟩`, `|01⟩` and `|10⟩`. -/
theorem grover_prob_one :
    probAt grover_statevec (bvec true true) = 1 ∧
    probAt grover_statevec (bvec false false) = 0 ∧
    probAt grover_statevec (bvec true false) = 0 ∧
    probAt grover_statevec (bvec false true) = 0 := by
  rw [probAt, probAt, probAt, probAt, grover_statevec_eq]
  refine ⟨?_, ?_, ?_, ?_⟩ <;> simp [bvec_zero, bvec_one]

/-- C10 (counterexample): the final amplitude of `|11⟩` is `+1`, not `-1`
as the claim asserts. -/
theorem grover_statevec_amp_not_neg_one :
    (grover_statevec.map fun φ => φ (bvec true true)) ≠ some (-1) ∧
    (grover_statevec.map fun φ => φ (bvec true true)) = some 1 := by
  rw [grover_statevec_eq]
  constructor
  · intro h
    have h1 : (if bvec true true 0 && bvec true true 1 then (1 : Amp) else 0) = -1 :=
      Option.some.inj h
    rw [bvec_zero, bvec_one] at h1
    simp only [Bool.and_self, if_true] at h1
    have : (1 : ℚ) = -1 := congrArg Amp.re h1
    norm_num at this
  · simp [bvec_zero, bvec_one]

/-- C10 (amended): the exact final statevector of the full 2-qubit circuit
is `+|11⟩` — the amplitude of `|11⟩` is exactly `1` and the other three
amplitudes are exactly `0`. -/
theorem grover_statevec_exact :
    grover_statevec = some (fun b => if b 0 && b 1 then 1 else 0) :=
  grover_statevec_eq

/-- C5: `initialize_s(circuit, qubits)` appends exactly one Hadamard gate
per element of `qubits`, in list order, to the given circuit and returns
that circuit with no other instruction added; and `diffuser` appends its
gates (and nothing else) to a fresh circuit, whose instruction list is
exactly the stated sequence. -/
theorem initialize_s_appends_hadamards :
    (∀ (circuit : List Op) (qubits : List ℕ),
      initialize_s circuit qubits =
        circuit ++ qubits.map fun q => Op.gate (Gate.h q)) ∧
    (∀ nqubits : ℕ, diffuser nqubits =
      (List.range nqubits).map (fun q => Op.gate (Gate.h q)) ++
      ((List.range nqubits).map (fun q => Op.gate (Gate.x q)) ++
      ([Op.gate (Gate.h (nqubits - 1))] ++
      ([Op.gate (Gate.mct (List.range (nqubits - 1)) (nqubits - 1))] ++
      ([Op.gate (Gate.h (nqubits - 1))] ++
      ((List.range nqubits).map (fun q => Op.gate (Gate.x q)) ++
      (List.range nqubits).map (fun q => Op.gate (Gate.h q)))))))) :=
  ⟨fun circuit qubits => foldl_append_map qubits circuit _, diffuser_eq⟩

/-- The gate kinds named by the spec: Hadamard, Pauli-X, Pauli-Z,
controlled-Z, multi-controlled Toffoli, each addressed by qubit index. -/
def gateKindListed (g : Gate) : Prop :=
  (∃ q, g = Gate.h q) ∨ (∃ q, g = Gate.x q) ∨ (∃ q, g = Gate.z q) ∨
  (∃ a b, g = Gate.cz a b) ∨ (∃ cs t, g = Gate.mct cs t)

theorem gateKindListed_all (g : Gate) : gateKindListed g := by
  cases g with
  | h q => exact Or.inl ⟨q, rfl⟩
  | x q => exact Or.inr (Or.inl ⟨q, rfl⟩)
  | z q => exact Or.inr (Or.inr (Or.inl ⟨q, rfl⟩))
  | cz a b => exact Or.inr (Or.inr (Or.inr (Or.inl ⟨a, b, rfl⟩)))
  | mct cs t => exact Or.inr (Or.inr (Or.inr (Or.inr ⟨cs, t, rfl⟩)))

/-- Every instruction the notebook's cells append, to either circuit: the
gates of the main circuit, the copy's `save_statevector`, and what
`measure_all` appends (a barrier and one measurement per qubit). -/
def notebook_appended_ops : List Op :=
  grover_circuit_3 ++ [Op.saveStatevector, Op.barrier, Op.measure 0, Op.measure 1]

/-- C6: every gate operation the repository's code appends to a circuit —
in the notebook's cells, in `diffuser` for any qubit count, and in
`initialize_s` for any arguments — is one of the five listed kinds
(Hadamard, Pauli-X, Pauli-Z, controlled-Z, multi-controlled Toffoli),
addressed by qubit index; the remaining appended instructions
(measurements, barrier, `save_statevector`) are not gates. -/
theorem appended_gates_are_listed_kinds :
    (∀ op ∈ notebook_appended_ops, ∀ g, op = Op.gate g → gateKindListed g) ∧
    (∀ nqubits : ℕ, ∀ op ∈ diffuser nqubits, ∀ g, op = Op.gate g →
      gateKindListed g) ∧
    (∀ (circuit : List Op) (qubits : List ℕ), ∀ op,
      op ∈ initialize_s circuit qubits → op ∉ circuit →
        ∃ q ∈ qubits, op = Op.gate (Gate.h q)) := by
  refine ⟨fun op _ g _ => gateKindListed_all g,
    fun nqubits op _ g _ => gateKindListed_all g, ?_⟩
  intro circuit qubits op hop hnot
  rw [show initialize_s circuit qubits =
      circuit ++ qubits.map fun q => Op.gate (Gate.h q) from
    foldl_append_map qubits circuit _] at hop
  rcases List.mem_append.mp hop with h | h
  · exact absurd h hnot
  · rcases List.mem_map.mp h with ⟨q, hq, rfl⟩
    exact ⟨q, hq, rfl⟩

/-- A statement of a notebook cell, by kind (the granularity needed to
state that the code contains no exception handler). -/
inductive PyStmt where
  | importStmt
  | assign
  | funcDef
  | exprStmt
  | tryExcept
deriving DecidableEq, Repr

/-- What the transcripts record for a cell: rendered images, or an
uncaught exception with its type name and what went wrong. -/
inductive ErrKind where
  | unsupportedInstruction
  | undefinedVariable
deriving DecidableEq, Repr

inductive CellOutput where
  | image
  | errorOut (ename : String) (kind : ErrKind)
deriving DecidableEq, Repr

structure NbCell where
  stmts : List PyStmt
  outputs : List CellOutput
deriving DecidableEq, Repr

/-- The code cells of the committed notebook, in order: imports and the
simulator, the circuit construction, the two function definitions, the
gate-appending cells, the statevector cell (whose recorded output is the
uncaught `QiskitError` about the unsupported composite `U_s` instruction,
left from a run with the non-inline diffuser), and the measurement cell. -/
def notebook_cells : List NbCell :=
  [⟨[.importStmt, .importStmt, .importStmt, .importStmt, .importStmt,
     .importStmt, .assign], []⟩,
   ⟨[.assign, .assign], []⟩,
   ⟨[.funcDef], []⟩,
   ⟨[.funcDef], []⟩,
   ⟨[.assign, .exprStmt], [.image]⟩,
   ⟨[.exprStmt, .exprStmt], [.image]⟩,
   ⟨[.exprStmt, .exprStmt, .exprStmt, .exprStmt, .exprStmt], [.image]⟩,
   ⟨[.assign, .exprStmt, .assign, .assign, .assign, .exprStmt],
     [.errorOut "QiskitError" .unsupportedInstruction]⟩,
   ⟨[.exprStmt, .assign, .assign, .assign, .exprStmt], []⟩]

/-- The code cells of the checkpoint copy of the notebook: the same
script, whose measurement cell's recorded output is an uncaught
`NameError` (`sim` undefined — stale notebook state, the cell referring
to a simulator variable bound under another name). -/
def checkpoint_cells : List NbCell :=
  [⟨[.importStmt, .importStmt, .importStmt, .importStmt, .importStmt,
     .importStmt, .importStmt, .assign], []⟩,
   ⟨[.assign, .assign], []⟩,
   ⟨[.funcDef], []⟩,
   ⟨[.funcDef], []⟩,
   ⟨[.assign, .exprStmt], [.image]⟩,
   ⟨[.exprStmt, .exprStmt], [.image]⟩,
   ⟨[.exprStmt, .exprStmt, .exprStmt, .exprStmt, .exprStmt], [.image]⟩,
   ⟨[.assign, .exprStmt, .assign, .assign, .assign, .exprStmt], []⟩,
   ⟨[.exprStmt, .assign, .assign, .assign, .exprStmt],
     [.errorOut "NameError" .undefinedVariable]⟩]

/-- C7: the notebook has no error handling of its own — no cell of either
notebook file contains a try/except statement, so every SDK exception
propagates raw — and the transcripts show both an unsupported-instruction
error (`QiskitError`, from requesting a statevector for a circuit holding
the composite `U_s` diffuser gate) and an undefined-variable error
(`NameError`) from stale notebook state. -/
theorem no_error_handling_raw_exceptions :
    (∀ cell ∈ notebook_cells ++ checkpoint_cells,
      ∀ st ∈ cell.stmts, st ≠ PyStmt.tryExcept) ∧
    (∃ cell ∈ notebook_cells,
      CellOutput.errorOut "QiskitError" ErrKind.unsupportedInstruction ∈
        cell.outputs) ∧
    (∃ cell ∈ checkpoint_cells,
      CellOutput.errorOut "NameError" ErrKind.undefinedVariable ∈
        cell.outputs) := by
  refine ⟨by decide, ?_, ?_⟩
  · exact ⟨⟨[.assign, .exprStmt, .assign, .assign, .assign, .exprStmt],
      [.errorOut "QiskitError" .unsupportedInstruction]⟩, by decide, by decide⟩
  · exact ⟨⟨[.exprStmt, .assign, .assign, .assign, .exprStmt],
      [.errorOut "NameError" .undefinedVariable]⟩, by decide, by decide⟩

/-- The two circuit objects alive in the notebook: `grover_circuit` and
its copy `grover_circuit_sim`. -/
inductive CircId where
  | mainCirc
  | simCopy
deriving DecidableEq, Repr

/-- One event of the notebook's top-to-bottom execution. -/
inductive NbEvent where
  | buildCircuit
  | defineFunction
  | appendOp (c : CircId) (op : Op)
  | copyCircuit
  | simulate
  | display
deriving DecidableEq, Repr

/-- The notebook's execution trace, cell by cell: build the circuit,
define the two functions, append the Hadamards (`initialize_s`) and draw,
append the oracle and draw, append the inline diffuser and draw, copy the
circuit and append `save_statevector` to the copy, simulate and display
the statevector, then `measure_all` (a barrier and two measurements on
the main circuit), simulate again and display the histogram. -/
def notebook_trace : List NbEvent :=
  [.buildCircuit,
   .defineFunction, .defineFunction,
   .appendOp .mainCirc (.gate (.h 0)), .appendOp .mainCirc (.gate (.h 1)),
   .display,
   .appendOp .mainCirc (.gate (.cz 0 1)), .display,
   .appendOp .mainCirc (.gate (.h 0)), .appendOp .mainCirc (.gate (.h 1)),
   .appendOp .mainCirc (.gate (.z 0)), .appendOp .mainCirc (.gate (.z 1)),
   .appendOp .mainCirc (.gate (.cz 0 1)),
   .appendOp .mainCirc (.gate (.h 0)), .appendOp .mainCirc (.gate (.h 1)),
   .display,
   .copyCircuit, .appendOp .simCopy .saveStatevector,
   .simulate, .display,
   .appendOp .mainCirc .barrier,
   .appendOp .mainCirc (.measure 0), .appendOp .mainCirc (.measure 1),
   .simulate, .display]

/-- Is the event an append of an instruction to a circuit? -/
def isAppendEvent : NbEvent → Bool
  | .appendOp _ _ => true
  | _ => false

/-- Does the event append a non-measurement instruction?  (`measure_all`
appends a barrier and measurements; those are the measurement-like
instructions.) -/
def appendsNonMeasurement : NbEvent → Bool
  | .appendOp _ (.gate _) => true
  | .appendOp _ .saveStatevector => true
  | .appendOp _ _ => false
  | _ => false

/-- C8 (counterexample): it is not true that no operation is appended to a
circuit after a simulation call — `measure_all` appends a barrier and two
measurements to the main circuit after the statevector simulation. -/
theorem append_after_simulate_exists :
    ¬ (∀ i (hi : i < notebook_trace.length),
        ∀ j (hj : j < notebook_trace.length), i < j →
          notebook_trace.get ⟨i, hi⟩ = NbEvent.simulate →
          isAppendEvent (notebook_trace.get ⟨j, hj⟩) = false) := by
  decide

/-- C8 (amended): the notebook executes as a linear script — build the
circuit, append the fixed gates, simulate, display — and the only
instructions appended to a circuit after a simulation call are the
measurement instructions of `measure_all` (a barrier and one measurement
per qubit), before the second simulation; no gate and no
`save_statevector` is appended after a simulation call. -/
theorem only_measurements_appended_after_simulate :
    ∀ i (hi : i < notebook_trace.length),
      ∀ j (hj : j < notebook_trace.length), i < j →
        notebook_trace.get ⟨i, hi⟩ = NbEvent.simulate →
        appendsNonMeasurement (notebook_trace.get ⟨j, hj⟩) = false := by
  decide

theorem only_measurements_appended_after_simulate_witness :
    appendsNonMeasurement (notebook_trace.get ⟨20, by decide⟩) = false :=
  only_measurements_appended_after_simulate 18 (by decide) 20 (by decide)
    (by decide) (by decide)

end GroverNotebook
